import Mathlib

/-!
Shallow embedding of the nlprule rule-engine core (src/nlprule/src/rule/mod.rs)
and proofs of the specification claims about it.

Conventions of the embedding:
* Rust `Vec`/slices become `List`, `usize` becomes `ℕ`, `isize` becomes `ℤ`.
* Mutation of tokens through `&mut` references becomes explicit rebuilding of
  the token lists.
* Components that live outside rule/mod.rs (the composition/tokenizer/regex
  collaborators) are modelled from the spec; each such definition carries a
  doc comment starting with `Modelled from the spec:`.
* Source indexing that panics out of range is modelled with `getD`/defaults;
  every claim proved here is insensitive to those out-of-range corners.
-/

namespace Nlprule

/-- One reading of a word: source struct `WordData` with fields `lemma` and
`pos` (both strings here; the source interns them as `Cow`). `lemma` is a
keyword-like token in Lean, hence the field name `lemma_`. -/
structure WordData where
  lemma_ : String
  pos : String
  deriving DecidableEq

/-- source `WordData::new(lemma, pos)`. -/
def WordData.new (lemma_ pos : String) : WordData := ⟨lemma_, pos⟩

/-- source struct `Word`: surface text plus the tag list. -/
structure Word where
  text : String
  tags : List WordData
  deriving DecidableEq

/-- source struct `IncompleteToken`, restricted to the fields rule/mod.rs
reads: the mutable `word`, the character span, the byte span, and (as on the
complete `Token`) the full sentence text. -/
structure IncompleteToken where
  word : Word
  char_span : ℕ × ℕ
  byte_span : ℕ × ℕ
  text : String
  deriving DecidableEq

/-- source struct `Token` (complete token), same field selection. On every
token, `text` is the entire sentence text (see the comment in the source's
text-engine branch). -/
structure Token where
  word : Word
  char_span : ℕ × ℕ
  byte_span : ℕ × ℕ
  text : String
  deriving DecidableEq

/-- Modelled from the spec: the conversion `IncompleteToken → Token` used by
`Unify`'s discovery phase (`(*token).clone().into()`) lives in the tokenizer
module, which is not under src/. §6 of the spec says finalization freezes the
tags, so the word, spans and sentence text are carried over unchanged. -/
def IncompleteToken.freeze (t : IncompleteToken) : Token :=
  ⟨t.word, t.char_span, t.byte_span, t.text⟩

/-- Modelled from the spec: `tokenizer::finalize` (not under src/) freezes each
token and prepends a synthetic sentence-start token at index 0 (§6). The
sentence-start token is modelled with an empty word and zero spans, carrying
the sentence text. -/
def finalize (tokens : List IncompleteToken) : List Token :=
  ⟨⟨"", []⟩, (0, 0), (0, 0), ((tokens.head?.map (fun t => t.text)).getD "")⟩ ::
    tokens.map IncompleteToken.freeze

/-- source enum `POSFilter`: a literal POS string or a compiled regex. The
regex engine (`utils::regex::SerializeRegex`) is an external collaborator not
under src/, so a regex filter is modelled by the match predicate it denotes on
POS strings. The source constructor is named `String`; here `Str`. -/
inductive POSFilter where
  | Regex (is_match : String → Bool)
  | Str (s : String)

/-- source `POSFilter::is_word_data_match`. -/
def POSFilter.is_word_data_match (f : POSFilter) (data : WordData) : Bool :=
  match f with
  | .Str string => data.pos == string
  | .Regex regex => regex data.pos

/-- source `POSFilter::keep`: retain only matching tags. -/
def POSFilter.keep (f : POSFilter) (data : Word) : Word :=
  { data with tags := data.tags.filter (fun x => f.is_word_data_match x) }

/-- source `POSFilter::remove`: retain only non-matching tags. -/
def POSFilter.remove (f : POSFilter) (data : Word) : Word :=
  { data with tags := data.tags.filter (fun x => !f.is_word_data_match x) }

/-- source `POSFilter::and`: some tag matches all filters. -/
def POSFilter.and (filters : List POSFilter) (data : Word) : Bool :=
  data.tags.any (fun x => filters.all (fun filter => filter.is_word_data_match x))

/-- source `POSFilter::apply`: retain tags matching any filter group (DNF). -/
def POSFilter.apply (filters : List (List POSFilter)) (data : Word) : Word :=
  { data with tags := data.tags.filter (fun x =>
      filters.any (fun filter => filter.all (fun f => f.is_word_data_match x))) }

/-- source `either::Either` as used by `Disambiguation`. -/
inductive Either (α β : Type) where
  | Left (a : α)
  | Right (b : β)

/-- source enum `Disambiguation`. `OwnedWordData` is `WordData` here. -/
inductive Disambiguation where
  | Remove (l : List (Either WordData POSFilter))
  | Add (l : List WordData)
  | Replace (l : List WordData)
  | Filter (l : List (Option (Either WordData POSFilter)))
  | Unify (filters : List (List POSFilter)) (disambigs : List (Option POSFilter))
      (mask : List Bool)
  | Nop

def multiCartAux : List (List α) → List (List α)
  | [] => [[]]
  | l :: ls => l.flatMap (fun x => (multiCartAux ls).map (fun c => x :: c))

/-- itertools `multi_cartesian_product`: the lexicographic Cartesian product of
the given lists (leftmost axis varies slowest); on an empty list of lists the
itertools adaptor yields no combination at all. -/
def multi_cartesian_product (ls : List (List α)) : List (List α) :=
  match ls with
  | [] => []
  | _ => multiCartAux ls

/-- Rust `zip` truncates to the shorter operand: groups beyond the zipped
prefix are untouched mutable references, so they keep their state. `mapZip`
maps the zipped prefix and keeps the remainder of the first list. -/
def mapZip (f : α → β → α) : List α → List β → List α
  | gs, [] => gs
  | [], _ => []
  | g :: gs, p :: ps => f g p :: mapZip f gs ps

/-- Per-token body of the source `Disambiguation::Remove` branch. -/
def removeTok (data_or_filter : Either WordData POSFilter) (token : IncompleteToken) :
    IncompleteToken :=
  match data_or_filter with
  | .Left data =>
      { token with word := { token.word with tags := token.word.tags.filter (fun x =>
          !(x.pos == data.pos && (data.lemma_ == "" || x.lemma_ == data.lemma_))) } }
  | .Right filter => { token with word := filter.remove token.word }

/-- Per-token body of the source `Disambiguation::Filter` branch for a
`WordData` limit: remember the pre-filter lemma (`tags[0].lemma` if any, else
the surface text), retain tags whose pos equals the limit's pos, and on an
emptied tag set push the fallback tag. -/
def filterTokLimit (limit : WordData) (retain_last : Bool) (token : IncompleteToken) :
    IncompleteToken :=
  let last := ((token.word.tags.head?).map (fun x => x.lemma_)).getD token.word.text
  let kept := token.word.tags.filter (fun x => x.pos == limit.pos)
  if kept.isEmpty then
    { token with word := { token.word with
        tags := [WordData.new (if retain_last then last else token.word.text) limit.pos] } }
  else
    { token with word := { token.word with tags := kept } }

/-- Per-token body of the source `Disambiguation::Add` branch: push the tag
(empty parameter lemma means the surface text), then drop empty-pos tags. -/
def addTok (data : WordData) (token : IncompleteToken) : IncompleteToken :=
  let d := WordData.new (if data.lemma_ == "" then token.word.text else data.lemma_) data.pos
  { token with word := { token.word with
      tags := (token.word.tags ++ [d]).filter (fun x => !(x.pos == "")) } }

/-- Per-token body of the source `Disambiguation::Replace` branch: clear all
tags, then push the tag. -/
def replaceTok (data : WordData) (token : IncompleteToken) : IncompleteToken :=
  let d := WordData.new (if data.lemma_ == "" then token.word.text else data.lemma_) data.pos
  { token with word := { token.word with tags := [d] } }

/-- Discovery phase of the source `Disambiguation::Unify` branch: for each
combination of the Cartesian product, it stays active iff every token of every
masked group satisfies the conjunction on its frozen word. -/
def unifyActiveMask (combos : List (List POSFilter)) (groups : List (List IncompleteToken))
    (mask : List Bool) : List Bool :=
  combos.map (fun combo =>
    (groups.zip mask).all (fun gm =>
      !gm.2 || gm.1.all (fun token => POSFilter.and combo (token.freeze).word)))

/-- The word produced by the apply phase of the source `Disambiguation::Unify`
branch before the emptiness check: retain by the active combinations (DNF),
then optionally apply the group's disambig keep. -/
def unifyTokWord (to_apply : List (List POSFilter)) (disambig : Option POSFilter)
    (w0 : Word) : Word :=
  let w := POSFilter.apply to_apply w0
  match disambig with
  | some d => d.keep w
  | none => w

/-- Apply phase of the source `Disambiguation::Unify` branch, per token:
snapshot the word, compute the filtered word, and restore the snapshot if the
tag set emptied. -/
def unifyTok (to_apply : List (List POSFilter)) (disambig : Option POSFilter)
    (token : IncompleteToken) : IncompleteToken :=
  let before := token.word
  let w := unifyTokWord to_apply disambig token.word
  if w.tags.isEmpty then { token with word := before } else { token with word := w }

/-- Apply phase over the groups: `groups.into_iter().zip(disambigs).zip(mask)`
truncates to the shortest operand; unmasked groups are untouched. -/
def unifyApplyGroups (to_apply : List (List POSFilter))
    (groups : List (List IncompleteToken)) (disambigs : List (Option POSFilter))
    (mask : List Bool) : List (List IncompleteToken) :=
  mapZip (fun g (dm : Option POSFilter × Bool) =>
      if dm.2 then g.map (unifyTok to_apply dm.1) else g)
    groups (disambigs.zip mask)

/-- source `Disambiguation::apply` (rule/mod.rs lines 293-439). The groups of
mutable token references become a list of token lists that is returned
updated. -/
def Disambiguation.apply (self : Disambiguation) (groups : List (List IncompleteToken))
    (retain_last : Bool) : List (List IncompleteToken) :=
  match self with
  | .Remove data_or_filters =>
      mapZip (fun group df => group.map (removeTok df)) groups data_or_filters
  | .Filter filters =>
      mapZip (fun group maybe_filter =>
          match maybe_filter with
          | some (.Left limit) => group.map (filterTokLimit limit retain_last)
          | some (.Right filter) =>
              group.map (fun token => { token with word := filter.keep token.word })
          | none => group)
        groups filters
  | .Add datas => mapZip (fun group data => group.map (addTok data)) groups datas
  | .Replace datas => mapZip (fun group data => group.map (replaceTok data)) groups datas
  | .Unify filters disambigs mask =>
      let combos := multi_cartesian_product filters
      let filter_mask := unifyActiveMask combos groups mask
      if !(filter_mask.any (fun x => x)) then groups
      else
        let to_apply := (filter_mask.zip combos).filterMap
          (fun mc => if mc.1 then some mc.2 else none)
        unifyApplyGroups to_apply groups disambigs mask
  | .Nop => groups

/-- Modelled from the spec: `composition::Group` (the composition module is not
under src/), §3 of the spec: a character span plus the covered token index
range; `tokens(toks)` is the corresponding token slice. -/
structure Group where
  char_span : ℕ × ℕ
  token_range : ℕ × ℕ
  deriving DecidableEq

/-- source `Group::new(char_span)` as used by the text engine: empty token range. -/
def Group.new (span : ℕ × ℕ) : Group := ⟨span, (0, 0)⟩

/-- Modelled from the spec: the token slice a group covers (§3). -/
def Group.tokens (g : Group) (toks : List Token) : List Token :=
  (toks.drop g.token_range.1).take (g.token_range.2 - g.token_range.1)

/-- Modelled from the spec: `composition::MatchGraph` (§3): the ordered groups,
the group-id → group-position map (an association list here), and the matched
token slice. -/
structure MatchGraph where
  groups : List Group
  id_to_index : List (ℕ × ℕ)
  tokens : List Token
  deriving DecidableEq

/-- spec §3: `get_index` resolves a group id via `id_to_index`. -/
def MatchGraph.get_index (g : MatchGraph) (id : ℕ) : Option ℕ :=
  g.id_to_index.lookup id

/-- spec §3: `by_id(id)` resolves via `id_to_index`, then positionally. -/
def MatchGraph.by_id (g : MatchGraph) (id : ℕ) : Option Group :=
  (g.get_index id).bind (fun i => g.groups[i]?)

/-- spec §3: `by_index(i)` is positional. The source indexes the slice and
panics out of range; modelled with a default zero group. -/
def MatchGraph.by_index (g : MatchGraph) (i : ℕ) : Group :=
  (g.groups[i]?).getD (Group.new (0, 0))

/-- source `composition::Composition`, consumed as a black box (§3): `apply`
anchors at a token index and may yield a match graph; `can_not_match` is a
fast negative check on a token's surface text. -/
structure Composition where
  apply : List Token → ℕ → Option MatchGraph
  can_not_match : String → Bool

/-- source struct `TokenEngine`: the composition plus the anti-patterns. -/
structure TokenEngine where
  composition : Composition
  antipatterns : List Composition

/-- Overall character span of a graph as computed inside the source
`TokenEngine::get_match`: first group's span start, last group's span end. -/
def overallStart (g : MatchGraph) : ℕ := (g.by_index 0).char_span.1

def overallEnd (g : MatchGraph) : ℕ :=
  (g.by_index (g.groups.length - 1)).char_span.2

/-- The closed-interval overlap test of the source `TokenEngine::get_match`:
`anti_start <= rule_end && rule_start <= anti_end`. -/
def spansOverlap (anti_graph graph : MatchGraph) : Bool :=
  decide (overallStart anti_graph ≤ overallEnd graph) &&
    decide (overallStart graph ≤ overallEnd anti_graph)

/-- One anchor position of the anti-pattern scan in `TokenEngine::get_match`. -/
def antiBlocksAt (self : TokenEngine) (tokens : List Token) (graph : MatchGraph)
    (j : ℕ) : Bool :=
  self.antipatterns.any (fun antipattern =>
    match antipattern.apply tokens j with
    | some anti_graph => spansOverlap anti_graph graph
    | none => false)

/-- source `TokenEngine::get_match` (rule/mod.rs lines 656-692): run the
composition at the anchor; scan every anchor and every anti-pattern; block the
match when an anti-pattern graph's overall span overlaps. -/
def TokenEngine.get_match (self : TokenEngine) (tokens : List Token) (i : ℕ) :
    Option MatchGraph :=
  match self.composition.apply tokens i with
  | some graph =>
      let blocked := (List.range tokens.length).any (fun j => antiBlocksAt self tokens graph j)
      if !blocked then some graph else none
  | none => none

/-- source enum `Engine`. The text variant's regex and byte-to-char mapping are
external collaborators (`SerializeRegex`, not under src/); Modelled from the
spec: the text engine is modelled by the graph list its regex scan denotes on
the token slice (§4.2). -/
inductive Engine where
  | Token (engine : TokenEngine)
  | Text (scan : List Token → List MatchGraph)

/-- The character-indexed acceptance bitmask used by `Engine::get_matches` and
`Rules::apply`, modelled as a total function (the source allocates a vector of
the sentence's character count and panics if a span exceeds it; the claims
proved here do not depend on that corner). `spanAll` is `mask[start..end]`
being all false. -/
def spanAll (mask : ℕ → Bool) (s e : ℕ) : Bool :=
  (List.range' s (e - s)).all (fun k => !(mask k))

/-- Marking `mask[start..end] = true`. -/
def markSpan (mask : ℕ → Bool) (s e : ℕ) : ℕ → Bool :=
  fun k => if s ≤ k ∧ k < e then true else mask k

/-- The shared accept-walk of `Engine::get_matches` (token branch) and
`Rules::apply`: keep an item iff its span hits no previously marked character,
marking the spans of kept items. -/
def deOverlap (span : α → ℕ × ℕ) : (ℕ → Bool) → List α → List α
  | _, [] => []
  | mask, x :: rest =>
      if spanAll mask (span x).1 (span x).2 then
        x :: deOverlap span (markSpan mask (span x).1 (span x).2) rest
      else deOverlap span mask rest

/-- The `(graph, start_char, end_char)` candidates collected by the token
branch of `Engine::get_matches`: anchors not masked out, in order, with the
span of the `start` group and the `end - 1` group (resolved `by_id`; the
source unwraps and panics on a missing id, modelled with a default group). -/
def tokenGraphInfo (engine : TokenEngine) (tokens : List Token)
    (skip_mask : Option (List Bool)) (start end_ : ℕ) : List (MatchGraph × ℕ × ℕ) :=
  ((List.range tokens.length).filter (fun i =>
      match skip_mask with
      | some x => !(x.getD i false)
      | none => true)).filterMap (fun i =>
    match engine.get_match tokens i with
    | some graph =>
        let start_group := (graph.by_id start).getD (Group.new (0, 0))
        let end_group := (graph.by_id (end_ - 1)).getD (Group.new (0, 0))
        some (graph, start_group.char_span.1, end_group.char_span.2)
    | none => none)

/-- source `Engine::get_matches` (rule/mod.rs lines 701-774). Token branch:
collect candidates, sort ascending by start char (the source comparator
`|(_, start, _), (_, end, _)| start.cmp(end)` binds the name `end` to the
second candidate's start-char field, so it compares start chars; `sort_by` is
a stable merge sort), then accept non-overlapping spans left to right. Text
branch: the graphs the regex scan yields. -/
def Engine.get_matches (self : Engine) (tokens : List Nlprule.Token)
    (skip_mask : Option (List Bool)) (start end_ : ℕ) : List MatchGraph :=
  match self with
  | .Token engine =>
      let sorted := (tokenGraphInfo engine tokens skip_mask start end_).mergeSort
        (fun a b => decide (a.2.1 ≤ b.2.1))
      (deOverlap (fun x => x.2) (fun _ => false) sorted).map (fun x => x.1)
  | .Text scan => scan tokens

/-- source struct `Suggestion`. `end` is a Lean keyword, hence `end_`. -/
structure Suggestion where
  source : String
  message : String
  start : ℕ
  end_ : ℕ
  text : List String
  deriving DecidableEq

/-- source `impl PartialEq for Suggestion`: the replacement-text sets (the
source collects the vectors into hash sets, which only deduplicates) have a
nonempty intersection, and the spans are equal. -/
def Suggestion.eq (self other : Suggestion) : Bool :=
  (self.text.any (fun s => other.text.contains s)) && other.start == self.start &&
    other.end_ == self.end_

/-- source struct `Synthesizer` (§4.3). Its `apply` walks the parts consulting
the external tokenizer/tagger, the regex engine and Unicode case conversion
(all outside src/), so it is modelled as the function it denotes: given the
match graph and the rule's start/end group ids it may produce a string. -/
structure Synthesizer where
  apply : MatchGraph → ℕ → ℕ → Option String

/-- Modelled from the spec: `utils::no_space_chars` (utils is not under src/);
§4.6 lists the space-suppressing punctuation. -/
def no_space_chars : List Char := [',', '.', ';', ':', '!', '?', ')']

/-- Rust `str::starts_with(char)`. -/
def startsWithChar (x : String) (c : Char) : Bool :=
  match x.toList with
  | [] => false
  | a :: _ => a == c

/-- Modelled from the spec: `utils::fix_nospace_chars` (utils is not under
src/); §4.6: remove any stray space that precedes a no-space character. -/
def fixNospaceAux : List Char → List Char
  | [] => []
  | [c] => [c]
  | a :: b :: rest =>
      if a == ' ' && no_space_chars.contains b then fixNospaceAux (b :: rest)
      else a :: fixNospaceAux (b :: rest)

def fix_nospace_chars (s : String) : String := ⟨fixNospaceAux s.toList⟩

/-- source struct `Rule` (correction rule). -/
structure Rule where
  id : String
  engine : Engine
  suggesters : List Synthesizer
  message : Synthesizer
  start : ℕ
  end_ : ℕ
  on_ : Bool

/-- source `Rule::apply` (rule/mod.rs lines 805-877). Per match graph: run the
suggesters (dropping the ones that return none); when every produced
suggestion starts with a no-space character, extend the start leftward to the
end of the token preceding the matched region (the source locates that token
by pointer identity in `tokens`; modelled as the first structurally equal
token, with the source's `unwrap_or(0)` default); normalize the suggestions;
emit a `Suggestion` only when the text list is non-empty. The source panics
when the message synthesizer returns none (`expect`); modelled with `getD`. -/
def Rule.apply (self : Rule) (tokens : List Nlprule.Token)
    (skip_mask : Option (List Bool)) : List Suggestion :=
  (self.engine.get_matches tokens skip_mask self.start self.end_).filterMap (fun graph =>
    let start_group := (graph.by_id self.start).getD (Group.new (0, 0))
    let end_group := (graph.by_id (self.end_ - 1)).getD (Group.new (0, 0))
    let text : List String :=
      self.suggesters.filterMap (fun x => x.apply graph self.start self.end_)
    let start :=
      if text.all (fun x => no_space_chars.any (fun c => startsWithChar x c)) then
        let first_token :=
          ((graph.groups.drop ((graph.get_index self.start).getD 0)).find?
              (fun x => !(x.tokens graph.tokens).isEmpty)).bind
            (fun group => (group.tokens graph.tokens).head?)
        let idx := match first_token with
          | some ft => (tokens.findIdx? (fun x => x == ft)).getD 0
          | none => 0
        if idx > 0 then ((tokens[idx - 1]?).map (fun t => t.char_span.2)).getD 0
        else start_group.char_span.1
      else start_group.char_span.1
    let end_ := end_group.char_span.2
    let text := text.map fix_nospace_chars
    if !text.isEmpty then
      some { message := (self.message.apply graph self.start self.end_).getD "",
             source := self.id, start := start, end_ := end_, text := text }
    else none)

/-- source struct `Cache`: word → per-rule bit vector, as an association list. -/
structure Cache where
  cache : List (String × List Bool)

/-- source `Cache::get_skip_mask`: per text, the rule's bit if present, else
false. The source indexes `mask[i]` and panics when the bit vector is shorter;
modelled with `getD`. -/
def Cache.get_skip_mask (self : Cache) (texts : List String) (i : ℕ) : List Bool :=
  texts.map (fun x =>
    ((self.cache.lookup x).map (fun mask => mask.getD i false)).getD false)

/-- source struct `Rules`. -/
structure Rules where
  rules : List Rule
  cache : Cache

/-- source `Rules::apply` (rule/mod.rs lines 1032-1070): on a non-empty token
sequence, run every enabled rule with its cached skip mask (rule indices are
taken before the `on` filter, as in the source), concatenate, sort ascending
by `start` (`sort_by`, a stable merge sort), then de-overlap with the
character bitmask. `Token: AsRef<str>` (outside src/) is modelled from the
spec as the token's surface text (§4.8). -/
def Rules.apply (self : Rules) (tokens : List Nlprule.Token) : List Suggestion :=
  if tokens.isEmpty then []
  else
    let output := ((self.rules.enum.filter (fun ix => ix.2.on_)).map (fun ix =>
        let skip_mask := self.cache.get_skip_mask (tokens.map (fun t => t.word.text)) ix.1
        ix.2.apply tokens (some skip_mask))).flatten
    let output := output.mergeSort (fun a b => decide (a.start ≤ b.start))
    deOverlap (fun s => (s.start, s.end_)) (fun _ => false) output

/-- The character-splicing loop of source `Rules::correct` on the character
list, with the running signed offset. The source indexes `suggestion.text[0]`
(panics when empty; modelled with `headD ""`), and casts `isize` to `usize`
(wrapping on negatives, on which `splice` then panics; modelled with `toNat`).
`splice(a..b, r)` is take-a ++ r ++ drop-b. -/
def correctAux : List Char → List Suggestion → ℤ → List Char
  | chars, [], _ => chars
  | chars, s :: rest, offset =>
      let replacement := (s.text.headD "").toList
      let a := ((s.start : ℤ) + offset).toNat
      let b := ((s.end_ : ℤ) + offset).toNat
      correctAux (chars.take a ++ replacement ++ chars.drop b) rest
        (offset + replacement.length - ((s.end_ : ℤ) - (s.start : ℤ)))

/-- source `Rules::correct` (rule/mod.rs lines 1072-1088). -/
def Rules.correct (text : String) (suggestions : List Suggestion) : String :=
  ⟨correctAux text.toList suggestions 0⟩

/-- source struct `DisambiguationRule`. The `Filter` collaborator (filter.rs,
not under src/) evaluates an opaque semantic predicate consulting the
tokenizer; Modelled from the spec: it is the predicate `keep(graph) → bool` it
denotes (§9 Opaque Filter). -/
structure DisambiguationRule where
  id : String
  engine : Engine
  disambiguations : Disambiguation
  filter : Option (MatchGraph → Bool)
  start : ℕ
  end_ : ℕ

/-- The `matches!(self.disambiguations, Disambiguation::Nop)` test. -/
def Disambiguation.isNop : Disambiguation → Bool
  | .Nop => true
  | _ => false

/-- The skip-mask refinement loop of `DisambiguationRule::apply`: every index
still false is set to `composition.can_not_match` of the token (its surface
text; `IncompleteToken: AsRef<str>` is outside src/ and modelled from the spec
§4.8 as the surface text) when the engine is token-based; text engines keep
false. -/
def DisambiguationRule.refineSkipMask (self : DisambiguationRule)
    (tokens : List IncompleteToken) (skip_mask : List Bool) : List Bool :=
  skip_mask.enum.map (fun iv =>
    if iv.2 then iv.2
    else
      match self.engine with
      | .Token engine =>
          engine.composition.can_not_match (((tokens[iv.1]?).map (fun t => t.word.text)).getD "")
      | .Text _ => false)

/-- The per-graph byte-span collection of `DisambiguationRule::apply`: for each
surviving graph (not rejected by the optional filter), per group id in
`[start, end)`, the byte spans of the group's tokens (a hash set in the
source; a list queried only by `contains` here). -/
def DisambiguationRule.matchByteSpans (self : DisambiguationRule)
    (refs : List Nlprule.Token) (skip_mask : List Bool) : List (List (List (ℕ × ℕ))) :=
  ((self.engine.get_matches refs (some skip_mask) self.start self.end_).filter
      (fun graph =>
        match self.filter with
        | some f => f graph
        | none => true)).map (fun graph =>
    (List.range' self.start (self.end_ - self.start)).map (fun group_idx =>
      let group := (graph.by_id group_idx).getD (Group.new (0, 0))
      (group.tokens graph.tokens).map (fun x => x.byte_span)))

/-- The greedy left-to-right pull of `DisambiguationRule::apply` (lines
546-561): the source's while-let loop repeatedly removes the first remaining
token reference whose byte span is in the group's span set, so each group
collects, in ascending position order, every remaining token with a matching
byte span — a sequential partition. Tokens are paired with their indices so
the result can be written back. -/
def pullGroups : List (ℕ × IncompleteToken) → List (List (ℕ × ℕ)) →
    List (List (ℕ × IncompleteToken))
  | _, [] => []
  | refs, set :: rest =>
      (refs.filter (fun x => set.contains x.2.byte_span)) ::
        pullGroups (refs.filter (fun x => !set.contains x.2.byte_span)) rest

/-- One iteration of the mutation loop of `DisambiguationRule::apply`: pull the
per-group token references, run the disambiguation operator on them, and write
the updated tokens back at their original positions. -/
def applyByteSpans (self : DisambiguationRule) (tokens : List IncompleteToken)
    (byte_spans : List (List (ℕ × ℕ))) (retain_last : Bool) : List IncompleteToken :=
  let groups := pullGroups tokens.enum byte_spans
  let updated := self.disambiguations.apply (groups.map (fun g => g.map (fun x => x.2)))
    retain_last
  let assignments : List (ℕ × IncompleteToken) :=
    (groups.zip updated).flatMap (fun gu => (gu.1.map (fun x => x.1)).zip gu.2)
  tokens.enum.map (fun iv => (assignments.lookup iv.1).getD iv.2)

/-- source `DisambiguationRule::apply` (rule/mod.rs lines 476-568). The
tokenizer argument is consulted only for `options().retain_last`, passed here
directly. -/
def DisambiguationRule.apply (self : DisambiguationRule)
    (tokens : List IncompleteToken) (retain_last : Bool) (skip_mask : List Bool)
    (complete_tokens : Option (List Nlprule.Token)) :
    List IncompleteToken × Option (List Nlprule.Token) :=
  if self.disambiguations.isNop then (tokens, none)
  else
    let skip_mask := self.refineSkipMask tokens skip_mask
    if skip_mask.all (fun x => x) then (tokens, none)
    else
      let complete_tokens := complete_tokens.getD (finalize tokens)
      let skip_mask := false :: skip_mask
      let all_byte_spans := self.matchByteSpans complete_tokens skip_mask
      if all_byte_spans.isEmpty then (tokens, some complete_tokens)
      else
        (all_byte_spans.foldl (fun toks byte_spans =>
            applyByteSpans self toks byte_spans retain_last) tokens,
          none)


/-- The precondition of `Rules::correct` (spec: suggestions already
non-overlapping and sorted, spans within the text): the consecutive chain
`lo ≤ start_i ≤ end_i ≤ start_{i+1} ≤ ... ≤ len`. For spans sorted by start,
pairwise disjointness coincides with this chain whenever the spans are
non-empty. -/
def sortedDisjointWithin : List Suggestion → ℕ → ℕ → Bool
  | [], _, _ => true
  | s :: rest, lo, len =>
      decide (lo ≤ s.start) && decide (s.start ≤ s.end_) && decide (s.end_ ≤ len) &&
        sortedDisjointWithin rest s.end_ len

/-! Concrete inputs used by the witness and counterexample theorems below. -/

/-- A token tagged only as a noun, surface text distinct from the lemma. -/
def dogToken : IncompleteToken := ⟨⟨"dogs", [⟨"dog", "NN"⟩]⟩, (0, 4), (0, 4), "dogs"⟩

/-- A token with an empty tag set. -/
def untaggedToken : IncompleteToken := ⟨⟨"foo", []⟩, (0, 3), (0, 3), "foo"⟩

/-- A token whose single tag has pos `A`. -/
def tokenPosA : IncompleteToken := ⟨⟨"w", [⟨"l", "A"⟩]⟩, (0, 1), (0, 1), "w"⟩

/-- A complete token for the engine examples. -/
def exToken : Nlprule.Token := ⟨⟨"x", []⟩, (0, 1), (0, 1), "abcdef"⟩

/-- A match graph whose single group spans characters 0-3. -/
def exGraph03 : MatchGraph := ⟨[Group.new (0, 3)], [(0, 0)], []⟩

/-- A match graph whose single group spans characters 2-5. -/
def exGraph25 : MatchGraph := ⟨[Group.new (2, 5)], [(0, 0)], []⟩

/-- A composition matching at anchor 0 with the 0-3 graph. -/
def exComp : Composition :=
  ⟨fun _ i => if i = 0 then some exGraph03 else none, fun _ => false⟩

/-- An anti-pattern composition matching at anchor 1 with the 2-5 graph. -/
def exAnti : Composition :=
  ⟨fun _ j => if j = 1 then some exGraph25 else none, fun _ => false⟩

/-- A token engine whose composition matches at anchor 0 with span 0-3 and
whose sole anti-pattern matches at anchor 1 with span 2-5. -/
def exBlockedEngine : TokenEngine := ⟨exComp, [exAnti]⟩

/-- A correction rule over a text engine producing one match, with one
always-successful suggester. -/
def exRule : Rule :=
  ⟨"EX_ID", .Text (fun _ => [exGraph03]), [⟨fun _ _ _ => some "x"⟩],
   ⟨fun _ _ _ => some "m"⟩, 0, 1, true⟩

/-- A disambiguation rule with the Nop operator. -/
def exNopRule : DisambiguationRule :=
  ⟨"NOP_ID", .Text (fun _ => []), Disambiguation.Nop, none, 0, 1⟩

/-- A disambiguation rule whose engine yields no match. -/
def exNoMatchRule : DisambiguationRule :=
  ⟨"NOMATCH_ID", .Text (fun _ => []), Disambiguation.Remove [], none, 0, 1⟩

/-- An empty rule collection. -/
def exRules : Rules := ⟨[], ⟨[]⟩⟩

/-- A one-suggestion splice example over the text `abc`. -/
def exSuggestion : Suggestion := ⟨"r", "m", 1, 2, ["XY"]⟩

/-- The operator shapes that never turn a non-empty tag set into an empty one:
`Replace`, `Add` with non-empty pos parameters, `Filter` whose parameters are
`WordData` limits or absent, `Unify`, and `Nop`. `Remove` and `Filter` with a
`POSFilter` parameter are excluded: they drop tags with no fallback. -/
def Disambiguation.addsOrKeeps : Disambiguation → Bool
  | .Remove _ => false
  | .Add l => l.all (fun d => !(d.pos == ""))
  | .Replace _ => true
  | .Filter l => l.all (fun o =>
      match o with
      | some (.Right _) => false
      | _ => true)
  | .Unify _ _ _ => true
  | .Nop => true

theorem mapZip_getElem? (f : α → β → α) (gs : List α) (ps : List β) (i : ℕ) :
    (mapZip f gs ps)[i]? =
      match gs[i]?, ps[i]? with
      | some g, some p => some (f g p)
      | some g, none => some g
      | none, _ => none := by
  induction gs generalizing ps i with
  | nil => cases ps <;> cases i <;> simp [mapZip]
  | cons g gs ih =>
      cases ps with
      | nil => cases h : (g :: gs)[i]? <;> simp [mapZip, h]
      | cons p ps =>
          cases i with
          | zero => simp [mapZip]
          | succ n => simpa [mapZip] using ih ps n

theorem replaceTok_tags_ne (data : WordData) (t : IncompleteToken) :
    (replaceTok data t).word.tags ≠ [] := by
  simp [replaceTok]

theorem addTok_tags_ne (data : WordData) (t : IncompleteToken)
    (h : (data.pos == "") = false) : (addTok data t).word.tags ≠ [] := by
  simp [addTok, WordData.new, List.filter_append, h]

theorem filterTokLimit_tags_ne (limit : WordData) (retain_last : Bool)
    (t : IncompleteToken) : (filterTokLimit limit retain_last t).word.tags ≠ [] := by
  unfold filterTokLimit
  cases hk : (List.filter (fun x => x.pos == limit.pos) t.word.tags).isEmpty with
  | true => simp [hk]
  | false =>
      simp only [hk, Bool.false_eq_true, if_false]
      intro h
      rw [h] at hk
      simp at hk

theorem unifyTok_empty_restores (ta : List (List POSFilter)) (dis : Option POSFilter)
    (t : IncompleteToken) (h : (unifyTok ta dis t).word.tags = []) :
    unifyTok ta dis t = t ∧ t.word.tags = [] := by
  unfold unifyTok at h ⊢
  cases hc : (unifyTokWord ta dis t.word).tags.isEmpty with
  | true =>
      simp only [hc, if_true] at h ⊢
      exact ⟨by simp, h⟩
  | false =>
      simp only [hc, Bool.false_eq_true, if_false] at h
      rw [h] at hc
      simp at hc

theorem mapZip_cases (f : α → β → α) (gs : List α) (ps : List β) (i : ℕ) (g g2 : α)
    (hg : gs[i]? = some g) (hg2 : (mapZip f gs ps)[i]? = some g2) :
    (∃ p, ps[i]? = some p ∧ g2 = f g p) ∨ (ps[i]? = none ∧ g2 = g) := by
  rw [mapZip_getElem?, hg] at hg2
  cases hp : ps[i]? with
  | some p =>
      rw [hp] at hg2
      simp at hg2
      exact Or.inl ⟨p, rfl, hg2.symm⟩
  | none =>
      rw [hp] at hg2
      simp at hg2
      exact Or.inr ⟨rfl, hg2.symm⟩

theorem map_token_at (F : IncompleteToken → IncompleteToken) (g : List IncompleteToken)
    (ti : ℕ) (t t2 : IncompleteToken) (ht : g[ti]? = some t)
    (ht2 : (g.map F)[ti]? = some t2) : t2 = F t := by
  rw [List.getElem?_map, ht] at ht2
  simp at ht2
  exact ht2.symm

/-- C1 (amended): after the `Replace` operator, the `Add` operator with
non-empty pos parameters, the `Filter` operator whose parameters are `WordData`
limits or absent, the `Unify` operator and `Nop`, no token in the affected
groups has an empty tag set unless its tag set was already empty on input and
the operator left the token unchanged. (`Remove` and `Filter` with a
`POSFilter` parameter are excluded: they can empty a non-empty tag set, see
the counterexample.) -/
theorem disamb_apply_no_new_empty (d : Disambiguation)
    (groups : List (List IncompleteToken)) (retain_last : Bool)
    (h : d.addsOrKeeps = true) (gi ti : ℕ) (g g2 : List IncompleteToken)
    (t t2 : IncompleteToken)
    (hg : groups[gi]? = some g) (ht : g[ti]? = some t)
    (hg2 : (d.apply groups retain_last)[gi]? = some g2) (ht2 : g2[ti]? = some t2)
    (hempty : t2.word.tags = []) : t.word.tags = [] ∧ t2 = t := by
  cases d with
  | Remove l => simp [Disambiguation.addsOrKeeps] at h
  | Add l =>
      rcases mapZip_cases _ groups l gi g g2 hg hg2 with ⟨p, hp, rfl⟩ | ⟨hp, rfl⟩
      · have ht2F := map_token_at (addTok p) g ti t t2 ht ht2
        have hpos : (p.pos == "") = false := by
          have := List.all_eq_true.mp h p (List.getElem?_mem hp)
          simpa using this
        exact absurd hempty (ht2F ▸ addTok_tags_ne p t hpos)
      · rw [ht] at ht2
        cases ht2
        exact ⟨hempty, rfl⟩
  | Replace l =>
      rcases mapZip_cases _ groups l gi g g2 hg hg2 with ⟨p, hp, rfl⟩ | ⟨hp, rfl⟩
      · have ht2F := map_token_at (replaceTok p) g ti t t2 ht ht2
        exact absurd hempty (ht2F ▸ replaceTok_tags_ne p t)
      · rw [ht] at ht2
        cases ht2
        exact ⟨hempty, rfl⟩
  | Filter l =>
      rcases mapZip_cases _ groups l gi g g2 hg hg2 with ⟨p, hp, rfl⟩ | ⟨hp, rfl⟩
      · cases p with
        | none =>
            rw [ht] at ht2
            cases ht2
            exact ⟨hempty, rfl⟩
        | some df =>
            cases df with
            | Left limit =>
                have ht2F := map_token_at (filterTokLimit limit retain_last) g ti t t2 ht ht2
                exact absurd hempty (ht2F ▸ filterTokLimit_tags_ne limit retain_last t)
            | Right filter =>
                have := List.all_eq_true.mp h _ (List.getElem?_mem hp)
                simp at this
      · rw [ht] at ht2
        cases ht2
        exact ⟨hempty, rfl⟩
  | Unify filters disambigs mask =>
      rw [show Disambiguation.apply (.Unify filters disambigs mask) groups retain_last =
          (if !((unifyActiveMask (multi_cartesian_product filters) groups mask).any (fun x => x))
           then groups
           else unifyApplyGroups
             (((unifyActiveMask (multi_cartesian_product filters) groups mask).zip
                 (multi_cartesian_product filters)).filterMap
               (fun mc => if mc.1 then some mc.2 else none))
             groups disambigs mask) from rfl] at hg2
      cases hact : ((unifyActiveMask (multi_cartesian_product filters) groups mask).any (fun x => x)) with
      | false =>
          rw [hact] at hg2
          simp only [Bool.not_false, if_true] at hg2
          rw [hg] at hg2
          cases hg2
          rw [ht] at ht2
          cases ht2
          exact ⟨hempty, rfl⟩
      | true =>
          rw [hact] at hg2
          simp only [Bool.not_true, Bool.false_eq_true, if_false] at hg2
          rcases mapZip_cases _ groups (disambigs.zip mask) gi g g2 hg hg2 with
            ⟨dm, hdm, rfl⟩ | ⟨hdm, rfl⟩
          · cases hmask : dm.2 with
            | true =>
                rw [hmask] at ht2
                simp only [if_true] at ht2
                have ht2F := map_token_at _ g ti t t2 ht ht2
                rw [ht2F] at hempty ⊢
                have := unifyTok_empty_restores _ dm.1 t hempty
                exact ⟨this.2, this.1⟩
            | false =>
                rw [hmask] at ht2
                simp only [Bool.false_eq_true, if_false] at ht2
                rw [ht] at ht2
                cases ht2
                exact ⟨hempty, rfl⟩
          · rw [ht] at ht2
            cases ht2
            exact ⟨hempty, rfl⟩
  | Nop =>
      rw [show Disambiguation.apply .Nop groups retain_last = groups from rfl] at hg2
      rw [hg] at hg2
      cases hg2
      rw [ht] at ht2
      cases ht2
      exact ⟨hempty, rfl⟩

/-- C1, counterexample: the `Remove` operator applied to a token whose tag set
is the non-empty `[(dog, NN)]` leaves an empty tag set (and `Remove` adds no
tags), so the claim is false for the full operator list as stated. -/
theorem remove_empties_nonempty_tags :
    dogToken.word.tags ≠ [] ∧
    Disambiguation.apply (.Remove [.Left ⟨"", "NN"⟩]) [[dogToken]] false =
      [[⟨⟨"dogs", []⟩, (0, 4), (0, 4), "dogs"⟩]] := by
  constructor
  · simp [dogToken]
  · decide

/-- C1, witness: the amended theorem applied to `Filter [none]` on a token
whose tag set is already empty. -/
theorem disamb_apply_no_new_empty_witness :
    untaggedToken.word.tags = [] ∧ untaggedToken = untaggedToken :=
  disamb_apply_no_new_empty (.Filter [none]) [[untaggedToken]] false (by decide)
    0 0 [untaggedToken] [untaggedToken] untaggedToken untaggedToken rfl rfl
    (by decide) rfl (by decide)

/-- C5: for a token processed by the `Filter` operator with a `WordData`
limit, the pre-filter lemma is remembered (`tags[0].lemma` if the tag set is
non-empty, else the surface text), only tags whose pos equals the limit's pos
are retained, and if that empties the tag set exactly one tag is inserted
whose lemma is the remembered lemma when `retain_last` is true and the surface
text otherwise, with the limit's pos. -/
theorem filter_limit_spec (params : List (Option (Either WordData POSFilter)))
    (groups : List (List IncompleteToken)) (retain_last : Bool) (gi ti : ℕ)
    (limit : WordData) (g : List IncompleteToken) (t : IncompleteToken)
    (hp : params[gi]? = some (some (Either.Left limit)))
    (hg : groups[gi]? = some g) (ht : g[ti]? = some t) :
    ∃ g2 t2, (Disambiguation.apply (.Filter params) groups retain_last)[gi]? = some g2 ∧
      g2[ti]? = some t2 ∧ t2.word.text = t.word.text ∧
      t2.word.tags =
        (let remembered := match t.word.tags with
          | [] => t.word.text
          | d :: _ => d.lemma_
         let kept := t.word.tags.filter (fun x => x.pos == limit.pos)
         if kept = [] then [⟨if retain_last then remembered else t.word.text, limit.pos⟩]
         else kept) := by
  have happly : (Disambiguation.apply (.Filter params) groups retain_last)[gi]? =
      some (g.map (filterTokLimit limit retain_last)) := by
    rw [show Disambiguation.apply (.Filter params) groups retain_last =
        mapZip (fun group maybe_filter =>
          match maybe_filter with
          | some (.Left limit) => group.map (filterTokLimit limit retain_last)
          | some (.Right filter) =>
              group.map (fun token => { token with word := filter.keep token.word })
          | none => group) groups params from rfl]
    rw [mapZip_getElem?, hg, hp]
  refine ⟨g.map (filterTokLimit limit retain_last), filterTokLimit limit retain_last t,
    happly, ?_, ?_, ?_⟩
  · rw [List.getElem?_map, ht]
    rfl
  · unfold filterTokLimit
    cases hk : (List.filter (fun x => x.pos == limit.pos) t.word.tags).isEmpty <;> simp [hk]
  · unfold filterTokLimit
    cases hk : (List.filter (fun x => x.pos == limit.pos) t.word.tags).isEmpty with
    | true =>
        simp only [hk, if_true]
        have hkept : t.word.tags.filter (fun x => x.pos == limit.pos) = [] :=
          List.isEmpty_iff.mp hk
        simp only [hkept, if_pos rfl]
        cases htags : t.word.tags with
        | nil => simp [WordData.new, htags]
        | cons d rest => simp [WordData.new, htags]
    | false =>
        simp only [hk, Bool.false_eq_true, if_false]
        have hkept : ¬(t.word.tags.filter (fun x => x.pos == limit.pos) = []) := by
          intro hcontra
          rw [hcontra] at hk
          simp at hk
        simp [hkept]

/-- C4: the `Unify` operator is atomic at two levels: (1) if after discovery no
combination of the Cartesian product of the filter lists remains active, the
operator returns the groups unchanged; (2) in the apply phase, a masked token
for which the retained combinations (and the optional per-group disambig keep)
would leave an empty tag set is returned unchanged — its word is restored from
the pre-apply snapshot. -/
theorem unify_atomic (filters : List (List POSFilter)) (disambigs : List (Option POSFilter))
    (mask : List Bool) (groups : List (List IncompleteToken)) (retain_last : Bool) :
    ((unifyActiveMask (multi_cartesian_product filters) groups mask).any (fun x => x) = false →
      Disambiguation.apply (.Unify filters disambigs mask) groups retain_last = groups)
    ∧ ((unifyActiveMask (multi_cartesian_product filters) groups mask).any (fun x => x) = true →
      ∀ (gi ti : ℕ) (g : List IncompleteToken) (t : IncompleteToken)
        (dm : Option POSFilter × Bool),
        groups[gi]? = some g → (disambigs.zip mask)[gi]? = some dm →
        dm.2 = true → g[ti]? = some t →
        (unifyTokWord
            (((unifyActiveMask (multi_cartesian_product filters) groups mask).zip
                (multi_cartesian_product filters)).filterMap
              (fun mc => if mc.1 then some mc.2 else none))
            dm.1 t.word).tags = [] →
        ∃ g2, (Disambiguation.apply
            (.Unify filters disambigs mask) groups retain_last)[gi]? = some g2 ∧
          g2[ti]? = some t) := by
  have hshow : Disambiguation.apply (.Unify filters disambigs mask) groups retain_last =
      (if !((unifyActiveMask (multi_cartesian_product filters) groups mask).any (fun x => x))
       then groups
       else unifyApplyGroups
         (((unifyActiveMask (multi_cartesian_product filters) groups mask).zip
             (multi_cartesian_product filters)).filterMap
           (fun mc => if mc.1 then some mc.2 else none))
         groups disambigs mask) := rfl
  constructor
  · intro hact
    rw [hshow, hact]
    simp
  · intro hact gi ti g t dm hg hdm hmask ht hempt
    rw [hshow, hact]
    simp only [Bool.not_true, Bool.false_eq_true, if_false]
    refine ⟨g.map (unifyTok
      (((unifyActiveMask (multi_cartesian_product filters) groups mask).zip
          (multi_cartesian_product filters)).filterMap
        (fun mc => if mc.1 then some mc.2 else none)) dm.1), ?_, ?_⟩
    · unfold unifyApplyGroups
      rw [mapZip_getElem?, hg, hdm]
      simp [hmask]
    · rw [List.getElem?_map, ht]
      simp only [Option.map_some']
      congr 1
      unfold unifyTok
      rw [if_pos (List.isEmpty_iff.mpr hempt)]

/-- C4, witness: the first conjunct on an infeasible `Unify`, the second on a
feasible one whose disambig keep would empty the token. -/
theorem unify_atomic_witness :
    Disambiguation.apply (.Unify [[.Str "C"]] [none] [true]) [[tokenPosA]] false =
      [[tokenPosA]] ∧
    (∃ g2, (Disambiguation.apply
        (.Unify [[.Str "A"]] [some (.Str "B")] [true]) [[tokenPosA]] false)[0]? = some g2 ∧
      g2[0]? = some tokenPosA) :=
  ⟨(unify_atomic [[.Str "C"]] [none] [true] [[tokenPosA]] false).1 (by decide),
   (unify_atomic [[.Str "A"]] [some (.Str "B")] [true] [[tokenPosA]] false).2 (by decide)
     0 0 [tokenPosA] tokenPosA (some (.Str "B"), true) rfl rfl rfl rfl (by decide)⟩

/-- C5, witness: the theorem applied to the retain-last scenario of spec §8.5:
a token tagged only `(dog, NN)` filtered with limit pos `VB` and
`retain_last = true` ends with exactly the tag `(dog, VB)`. -/
theorem filter_limit_spec_witness :
    ∃ g2 t2, (Disambiguation.apply
        (.Filter [some (.Left ⟨"", "VB"⟩)]) [[dogToken]] true)[0]? = some g2 ∧
      g2[0]? = some t2 ∧ t2.word.text = "dogs" ∧ t2.word.tags = [⟨"dog", "VB"⟩] := by
  obtain ⟨g2, t2, h1, h2, h3, h4⟩ := filter_limit_spec [some (.Left ⟨"", "VB"⟩)]
    [[dogToken]] true 0 0 ⟨"", "VB"⟩ [dogToken] dogToken rfl rfl rfl
  exact ⟨g2, t2, h1, h2, by rw [h3]; rfl, by rw [h4]; decide⟩

/-- C6: two suggestions are equal under the source `PartialEq` implementation
iff their spans are equal and their replacement-text sets intersect. -/
theorem suggestion_eq_iff (a b : Suggestion) :
    Suggestion.eq a b = true ↔
      (a.start = b.start ∧ a.end_ = b.end_ ∧ ∃ s, s ∈ a.text ∧ s ∈ b.text) := by
  unfold Suggestion.eq
  simp only [Bool.and_eq_true, List.any_eq_true, List.contains_iff_exists_mem_beq,
    beq_iff_eq]
  constructor
  · rintro ⟨⟨⟨s, hs, s2, hs2, hbeq⟩, hstart⟩, hend⟩
    exact ⟨hstart.symm, hend.symm, s, hs, by rwa [show s = s2 from by simpa using hbeq]⟩
  · rintro ⟨hstart, hend, s, hs, hs2⟩
    exact ⟨⟨⟨s, hs, s, hs2, by simp⟩, hstart.symm⟩, hend.symm⟩

theorem antiBlocksAt_iff (self : TokenEngine) (tokens : List Nlprule.Token)
    (graph : MatchGraph) (j : ℕ) :
    antiBlocksAt self tokens graph j = true ↔
      ∃ anti ∈ self.antipatterns, ∃ AG, anti.apply tokens j = some AG ∧
        overallStart AG ≤ overallEnd graph ∧ overallStart graph ≤ overallEnd AG := by
  unfold antiBlocksAt
  simp only [List.any_eq_true]
  constructor
  · rintro ⟨anti, ha, hcond⟩
    cases happ : anti.apply tokens j with
    | none => rw [happ] at hcond; simp at hcond
    | some AG =>
        rw [happ] at hcond
        refine ⟨anti, ha, AG, happ, ?_⟩
        simpa [spansOverlap] using hcond
  · rintro ⟨anti, ha, AG, happ, h1, h2⟩
    refine ⟨anti, ha, ?_⟩
    rw [happ]
    simp [spansOverlap, h1, h2]

theorem get_match_blocked_iff (self : TokenEngine) (tokens : List Nlprule.Token)
    (graph : MatchGraph) :
    ((List.range tokens.length).any (fun j => antiBlocksAt self tokens graph j) = true) ↔
      ∃ j, j < tokens.length ∧ ∃ anti ∈ self.antipatterns, ∃ AG,
        anti.apply tokens j = some AG ∧
        overallStart AG ≤ overallEnd graph ∧ overallStart graph ≤ overallEnd AG := by
  simp only [List.any_eq_true, List.mem_range]
  constructor
  · rintro ⟨j, hj, hb⟩
    exact ⟨j, hj, (antiBlocksAt_iff self tokens graph j).mp hb⟩
  · rintro ⟨j, hj, h⟩
    exact ⟨j, hj, (antiBlocksAt_iff self tokens graph j).mpr h⟩

/-- C3: `TokenEngine::get_match(tokens, i)` returns `some G` iff the
composition matches at `i` yielding `G` and no anti-pattern, applied at any
anchor `j` below the token count, produces a graph whose overall character
span overlaps `G`'s overall span under the closed-interval test
`anti_start ≤ rule_end ∧ rule_start ≤ anti_end`; if such an overlap exists the
result is `none`. -/
theorem token_engine_get_match_iff (self : TokenEngine) (tokens : List Nlprule.Token)
    (i : ℕ) :
    (∀ G, self.get_match tokens i = some G ↔
      (self.composition.apply tokens i = some G ∧
        ¬∃ j, j < tokens.length ∧ ∃ anti ∈ self.antipatterns, ∃ AG,
          anti.apply tokens j = some AG ∧
          overallStart AG ≤ overallEnd G ∧ overallStart G ≤ overallEnd AG))
    ∧ (∀ G, self.composition.apply tokens i = some G →
        (∃ j, j < tokens.length ∧ ∃ anti ∈ self.antipatterns, ∃ AG,
          anti.apply tokens j = some AG ∧
          overallStart AG ≤ overallEnd G ∧ overallStart G ≤ overallEnd AG) →
        self.get_match tokens i = none) := by
  constructor
  · intro G
    unfold TokenEngine.get_match
    cases happ : self.composition.apply tokens i with
    | none => simp
    | some graph =>
        simp only []
        cases hb : ((List.range tokens.length).any
            (fun j => antiBlocksAt self tokens graph j)) with
        | true =>
            simp only [Bool.not_true, Bool.false_eq_true, if_false]
            constructor
            · intro hcontra
              simp at hcontra
            · rintro ⟨hGg, hnot⟩
              injection hGg with hGg
              subst hGg
              exact absurd ((get_match_blocked_iff self tokens graph).mp hb) hnot
        | false =>
            simp only [Bool.not_false, if_true]
            constructor
            · intro hsome
              injection hsome with hGg
              subst hGg
              refine ⟨rfl, ?_⟩
              intro hex
              rw [← get_match_blocked_iff self tokens graph] at hex
              rw [hex] at hb
              simp at hb
            · rintro ⟨hGg, _⟩
              injection hGg with hGg
              rw [hGg]
  · intro G happ hex
    unfold TokenEngine.get_match
    rw [happ]
    have hb : ((List.range tokens.length).any
        (fun j => antiBlocksAt self tokens G j)) = true :=
      (get_match_blocked_iff self tokens G).mpr hex
    simp [hb]

/-- C3, witness: the spec §8.3 anti-pattern gating scenario — the composition
matches at anchor 0 with span 0-3, the anti-pattern matches at anchor 1 with
the overlapping span 2-5, so the match is blocked. -/
theorem token_engine_get_match_iff_witness :
    TokenEngine.get_match exBlockedEngine [exToken, exToken] 0 = none :=
  (token_engine_get_match_iff exBlockedEngine [exToken, exToken] 0).2 exGraph03 rfl
    ⟨1, by decide, exAnti, List.mem_singleton.mpr rfl, exGraph25, rfl, by decide, by decide⟩

theorem spanAll_iff (mask : ℕ → Bool) (s e : ℕ) :
    spanAll mask s e = true ↔ ∀ k, s ≤ k → k < e → mask k = false := by
  unfold spanAll
  simp only [List.all_eq_true, List.mem_range']
  constructor
  · intro h k h1 h2
    have := h k ⟨k - s, by omega, by omega⟩
    simpa using this
  · rintro h k ⟨i, hi, rfl⟩
    simpa using h (s + 1 * i) (by omega) (by omega)

theorem deOverlap_sublist (span : α → ℕ × ℕ) (mask : ℕ → Bool) (l : List α) :
    (deOverlap span mask l).Sublist l := by
  induction l generalizing mask with
  | nil => simp [deOverlap]
  | cons x rest ih =>
      unfold deOverlap
      split
      · exact List.Sublist.cons₂ x (ih _)
      · exact List.Sublist.cons x (ih _)

theorem deOverlap_mem_mask (span : α → ℕ × ℕ) (mask : ℕ → Bool) (l : List α) (x : α)
    (hx : x ∈ deOverlap span mask l) :
    ∀ k, (span x).1 ≤ k → k < (span x).2 → mask k = false := by
  induction l generalizing mask with
  | nil => simp [deOverlap] at hx
  | cons y rest ih =>
      unfold deOverlap at hx
      split at hx
      · rename_i hacc
        rcases List.mem_cons.mp hx with rfl | hx2
        · exact fun k h1 h2 => (spanAll_iff mask _ _).mp hacc k h1 h2
        · intro k h1 h2
          have h3 := ih (markSpan mask (span y).1 (span y).2) hx2 k h1 h2
          unfold markSpan at h3
          split at h3
          · exact absurd h3 (by simp)
          · exact h3
      · exact ih mask hx

theorem deOverlap_pairwise (span : α → ℕ × ℕ) (mask : ℕ → Bool) (l : List α) :
    (deOverlap span mask l).Pairwise (fun a b => ∀ k,
      ((span a).1 ≤ k ∧ k < (span a).2) → ¬((span b).1 ≤ k ∧ k < (span b).2)) := by
  induction l generalizing mask with
  | nil => simp [deOverlap]
  | cons y rest ih =>
      unfold deOverlap
      split
      · refine List.Pairwise.cons ?_ (ih _)
        intro b hb k hky hkb
        have h3 := deOverlap_mem_mask span _ rest b hb k hkb.1 hkb.2
        unfold markSpan at h3
        rw [if_pos hky] at h3
        exact Bool.noConfusion h3
      · exact ih _

theorem tokenGraphInfo_mem (engine : TokenEngine) (tokens : List Nlprule.Token)
    (skip_mask : Option (List Bool)) (start end_ : ℕ) (x : MatchGraph × ℕ × ℕ)
    (hx : x ∈ tokenGraphInfo engine tokens skip_mask start end_) :
    x.2.1 = ((x.1.by_id start).getD (Group.new (0, 0))).char_span.1 ∧
    x.2.2 = ((x.1.by_id (end_ - 1)).getD (Group.new (0, 0))).char_span.2 := by
  unfold tokenGraphInfo at hx
  rw [List.mem_filterMap] at hx
  obtain ⟨i, hmem, hi⟩ := hx
  cases hm : engine.get_match tokens i with
  | none => rw [hm] at hi; simp at hi
  | some graph =>
      rw [hm] at hi
      simp at hi
      rw [← hi]
      exact ⟨rfl, rfl⟩

/-- C2: over a token-based engine, the match graphs returned by
`Engine::get_matches` are ordered ascending by the start character of the
group with id `start`, and the accepted `[start_char, end_char)` ranges are
pairwise disjoint within this one rule. -/
theorem engine_get_matches_sorted_disjoint (engine : TokenEngine)
    (tokens : List Nlprule.Token) (skip_mask : Option (List Bool)) (start end_ : ℕ) :
    ((Engine.Token engine).get_matches tokens skip_mask start end_).Pairwise
        (fun a b => ((a.by_id start).getD (Group.new (0, 0))).char_span.1 ≤
          ((b.by_id start).getD (Group.new (0, 0))).char_span.1) ∧
    ((Engine.Token engine).get_matches tokens skip_mask start end_).Pairwise
        (fun a b => ∀ k,
          (((a.by_id start).getD (Group.new (0, 0))).char_span.1 ≤ k ∧
            k < ((a.by_id (end_ - 1)).getD (Group.new (0, 0))).char_span.2) →
          ¬(((b.by_id start).getD (Group.new (0, 0))).char_span.1 ≤ k ∧
            k < ((b.by_id (end_ - 1)).getD (Group.new (0, 0))).char_span.2)) := by
  have hmatches : (Engine.Token engine).get_matches tokens skip_mask start end_ =
      (deOverlap (fun x => x.2) (fun _ => false)
        ((tokenGraphInfo engine tokens skip_mask start end_).mergeSort
          (fun a b => decide (a.2.1 ≤ b.2.1)))).map (fun x => x.1) := rfl
  have hinv : ∀ x ∈ (tokenGraphInfo engine tokens skip_mask start end_).mergeSort
      (fun a b => decide (a.2.1 ≤ b.2.1)),
      x.2.1 = ((x.1.by_id start).getD (Group.new (0, 0))).char_span.1 ∧
      x.2.2 = ((x.1.by_id (end_ - 1)).getD (Group.new (0, 0))).char_span.2 := by
    intro x hx
    exact tokenGraphInfo_mem engine tokens skip_mask start end_ x
      (List.mem_mergeSort.mp hx)
  have hsorted : ((tokenGraphInfo engine tokens skip_mask start end_).mergeSort
      (fun a b => decide (a.2.1 ≤ b.2.1))).Pairwise (fun a b => a.2.1 ≤ b.2.1) := by
    have hs := @List.sorted_mergeSort (MatchGraph × ℕ × ℕ)
      (fun a b => decide (a.2.1 ≤ b.2.1))
      (fun a b c h1 h2 => by
        simp only [decide_eq_true_eq] at *
        omega)
      (fun a b => by
        simp only [Bool.or_eq_true, decide_eq_true_eq]
        omega)
      (tokenGraphInfo engine tokens skip_mask start end_)
    exact hs.imp (fun h => by simpa using h)
  have hacc := deOverlap_sublist (fun x : MatchGraph × ℕ × ℕ => x.2) (fun _ => false)
    ((tokenGraphInfo engine tokens skip_mask start end_).mergeSort
      (fun a b => decide (a.2.1 ≤ b.2.1)))
  have hmem : ∀ x ∈ deOverlap (fun x : MatchGraph × ℕ × ℕ => x.2) (fun _ => false)
      ((tokenGraphInfo engine tokens skip_mask start end_).mergeSort
        (fun a b => decide (a.2.1 ≤ b.2.1))),
      x.2.1 = ((x.1.by_id start).getD (Group.new (0, 0))).char_span.1 ∧
      x.2.2 = ((x.1.by_id (end_ - 1)).getD (Group.new (0, 0))).char_span.2 :=
    fun x hx => hinv x (hacc.subset hx)
  constructor
  · rw [hmatches, List.pairwise_map]
    refine (List.Pairwise.sublist hacc hsorted).imp_of_mem ?_
    intro a b ha hb hle
    rw [← (hmem a ha).1, ← (hmem b hb).1]
    exact hle
  · rw [hmatches, List.pairwise_map]
    refine (deOverlap_pairwise (fun x : MatchGraph × ℕ × ℕ => x.2) (fun _ => false)
      _).imp_of_mem ?_
    intro a b ha hb hdisj k
    rw [← (hmem a ha).1, ← (hmem b hb).1, ← (hmem a ha).2, ← (hmem b hb).2]
    exact hdisj k

/-- C7: for a non-empty token sequence, the suggestion list returned by
`Rules::apply` is sorted ascending by `start`, and the retained suggestions'
`[start, end)` character ranges are pairwise disjoint across all enabled
rules. -/
theorem rules_apply_sorted_disjoint (self : Rules) (tokens : List Nlprule.Token)
    (h : tokens ≠ []) :
    (self.apply tokens).Pairwise (fun a b => a.start ≤ b.start) ∧
    (self.apply tokens).Pairwise (fun a b => ∀ k, (a.start ≤ k ∧ k < a.end_) →
      ¬(b.start ≤ k ∧ k < b.end_)) := by
  have hne : tokens.isEmpty = false := by
    cases tokens with
    | nil => simp at h
    | cons a l => rfl
  have happly : self.apply tokens =
      deOverlap (fun s => (s.start, s.end_)) (fun _ => false)
        ((((self.rules.enum.filter (fun ix => ix.2.on_)).map (fun ix =>
            ix.2.apply tokens (some (self.cache.get_skip_mask
              (tokens.map (fun t => t.word.text)) ix.1)))).flatten).mergeSort
          (fun a b => decide (a.start ≤ b.start))) := by
    unfold Rules.apply
    rw [hne]
    rfl
  have hsorted : (((((self.rules.enum.filter (fun ix => ix.2.on_)).map (fun ix =>
      ix.2.apply tokens (some (self.cache.get_skip_mask
        (tokens.map (fun t => t.word.text)) ix.1)))).flatten).mergeSort
      (fun a b => decide (a.start ≤ b.start)))).Pairwise
      (fun a b : Suggestion => a.start ≤ b.start) := by
    have hs := @List.sorted_mergeSort Suggestion
      (fun a b => decide (a.start ≤ b.start))
      (fun a b c h1 h2 => by
        simp only [decide_eq_true_eq] at *
        omega)
      (fun a b => by
        simp only [Bool.or_eq_true, decide_eq_true_eq]
        omega)
      ((((self.rules.enum.filter (fun ix => ix.2.on_)).map (fun ix =>
        ix.2.apply tokens (some (self.cache.get_skip_mask
          (tokens.map (fun t => t.word.text)) ix.1)))).flatten))
    exact hs.imp (fun h => by simpa using h)
  constructor
  · rw [happly]
    exact List.Pairwise.sublist (deOverlap_sublist _ _ _) hsorted
  · rw [happly]
    exact deOverlap_pairwise (fun s : Suggestion => (s.start, s.end_)) (fun _ => false) _

/-- C7, witness: the theorem applied to an empty rule set on a one-token
sequence. -/
theorem rules_apply_sorted_disjoint_witness :
    (exRules.apply [exToken]).Pairwise (fun a b => a.start ≤ b.start) ∧
    (exRules.apply [exToken]).Pairwise (fun a b => ∀ k, (a.start ≤ k ∧ k < a.end_) →
      ¬(b.start ≤ k ∧ k < b.end_)) :=
  rules_apply_sorted_disjoint exRules [exToken] (by simp)

theorem correctAux_length (suggs : List Suggestion) :
    ∀ (chars : List Char) (offset : ℤ) (lo len0 : ℕ),
    sortedDisjointWithin suggs lo len0 = true →
    0 ≤ offset + lo →
    (chars.length : ℤ) = len0 + offset →
    ((correctAux chars suggs offset).length : ℤ) =
      (chars.length : ℤ) + (suggs.map (fun s =>
        (((s.text.headD "").toList.length : ℤ)) - ((s.end_ : ℤ) - (s.start : ℤ)))).sum := by
  induction suggs with
  | nil =>
      intro chars offset lo len0 _ _ _
      simp [correctAux]
  | cons s rest ih =>
      intro chars offset lo len0 hsd hoff hlen
      unfold sortedDisjointWithin at hsd
      simp only [Bool.and_eq_true, decide_eq_true_eq] at hsd
      obtain ⟨⟨⟨h1, h2⟩, h3⟩, hrest⟩ := hsd
      rw [show correctAux chars (s :: rest) offset =
        correctAux (chars.take ((s.start : ℤ) + offset).toNat ++
          (s.text.headD "").toList ++ chars.drop ((s.end_ : ℤ) + offset).toNat) rest
          (offset + ((s.text.headD "").toList.length : ℤ) -
            ((s.end_ : ℤ) - (s.start : ℤ))) from rfl]
      have hnew : (((chars.take ((s.start : ℤ) + offset).toNat ++
          (s.text.headD "").toList ++
          chars.drop ((s.end_ : ℤ) + offset).toNat).length) : ℤ) =
          (chars.length : ℤ) + ((s.text.headD "").toList.length : ℤ) -
            ((s.end_ : ℤ) - (s.start : ℤ)) := by
        simp only [List.length_append, List.length_take, List.length_drop]
        push_cast
        omega
      rw [ih _ (offset + ((s.text.headD "").toList.length : ℤ) -
          ((s.end_ : ℤ) - (s.start : ℤ))) s.end_ len0 hrest (by omega) (by omega)]
      rw [List.map_cons, List.sum_cons]
      omega

/-- C8: `Rules::correct` splices `suggestions[i].text[0]` in order over the
character sequence; on a sorted, non-overlapping, in-bounds suggestion list
with non-empty per-suggestion text vectors, the character length of the result
is the text's character count plus the sum over the suggestions of
`|replacement| - (end - start)`. -/
theorem rules_correct_length (text : String) (suggestions : List Suggestion)
    (hsd : sortedDisjointWithin suggestions 0 text.toList.length = true)
    (_hne : ∀ s ∈ suggestions, s.text ≠ []) :
    ((Rules.correct text suggestions).toList.length : ℤ) =
      (text.toList.length : ℤ) + (suggestions.map (fun s =>
        (((s.text.headD "").toList.length : ℤ)) - ((s.end_ : ℤ) - (s.start : ℤ)))).sum :=
  correctAux_length suggestions text.toList 0 0 text.toList.length hsd (by omega)
    (by omega)

/-- C8, witness: the theorem applied to the text `abc` with the single
suggestion replacing characters 1-2 by `XY`; the result has 3 + (2 - 1) = 4
characters. -/
theorem rules_correct_length_witness :
    sortedDisjointWithin [exSuggestion] 0 "abc".toList.length = true ∧
    (∀ s ∈ [exSuggestion], s.text ≠ []) ∧
    ((Rules.correct "abc" [exSuggestion]).toList.length : ℤ) =
      ("abc".toList.length : ℤ) + ([exSuggestion].map (fun s =>
        (((s.text.headD "").toList.length : ℤ)) - ((s.end_ : ℤ) - (s.start : ℤ)))).sum :=
  ⟨by decide, by decide, rules_correct_length "abc" [exSuggestion] (by decide) (by decide)⟩

/-- C9 (amended): `DisambiguationRule::apply` returns the complete tokens as
the second component exactly on the path where matches were computed and no
match graph survived; the `Nop` fast path and the all-true skip-mask
short-circuit return `(tokens, None)` even though the tokens are unchanged,
and the mutation path returns `None` as well. -/
theorem disambiguation_rule_apply_paths (self : DisambiguationRule)
    (tokens : List IncompleteToken) (retain_last : Bool) (skip_mask : List Bool)
    (complete_tokens : Option (List Nlprule.Token)) :
    (self.disambiguations.isNop = true →
      self.apply tokens retain_last skip_mask complete_tokens = (tokens, none))
    ∧ (self.disambiguations.isNop = false →
        (self.refineSkipMask tokens skip_mask).all (fun x => x) = true →
        self.apply tokens retain_last skip_mask complete_tokens = (tokens, none))
    ∧ (self.disambiguations.isNop = false →
        (self.refineSkipMask tokens skip_mask).all (fun x => x) = false →
        self.matchByteSpans (complete_tokens.getD (finalize tokens))
          (false :: self.refineSkipMask tokens skip_mask) = [] →
        self.apply tokens retain_last skip_mask complete_tokens =
          (tokens, some (complete_tokens.getD (finalize tokens))))
    ∧ (self.disambiguations.isNop = false →
        (self.refineSkipMask tokens skip_mask).all (fun x => x) = false →
        self.matchByteSpans (complete_tokens.getD (finalize tokens))
          (false :: self.refineSkipMask tokens skip_mask) ≠ [] →
        (self.apply tokens retain_last skip_mask complete_tokens).2 = none) := by
  refine ⟨?_, ?_, ?_, ?_⟩
  · intro h1
    unfold DisambiguationRule.apply
    rw [h1]
    rfl
  · intro h1 h2
    simp [DisambiguationRule.apply, h1, h2]
  · intro h1 h2 h3
    simp [DisambiguationRule.apply, h1, h2, h3]
  · intro h1 h2 h3
    have h4 : (self.matchByteSpans (complete_tokens.getD (finalize tokens))
        (false :: self.refineSkipMask tokens skip_mask)).isEmpty = false := by
      cases hcase : self.matchByteSpans (complete_tokens.getD (finalize tokens))
          (false :: self.refineSkipMask tokens skip_mask) with
      | nil => exact absurd hcase h3
      | cons a l => rfl
    simp [DisambiguationRule.apply, h1, h2, h4]

/-- C9, counterexample: with the `Nop` operator, `DisambiguationRule::apply`
returns the tokens unchanged yet `None` as the second component (not the
complete tokens), falsifying the claim that every unchanged return signals
reuse via the complete tokens. -/
theorem nop_apply_returns_none :
    DisambiguationRule.apply exNopRule [dogToken] false [false] none =
      ([dogToken], none) := rfl

/-- C9, witness: the amended theorem's Nop conjunct on a Nop rule, and its
no-surviving-graph conjunct on a rule whose engine yields no match. -/
theorem disambiguation_rule_apply_paths_witness :
    DisambiguationRule.apply exNopRule [untaggedToken] false [false] none =
      ([untaggedToken], none) ∧
    DisambiguationRule.apply exNoMatchRule [untaggedToken] false [false] none =
      ([untaggedToken], some (finalize [untaggedToken])) :=
  ⟨(disambiguation_rule_apply_paths exNopRule [untaggedToken] false [false] none).1 rfl,
   (disambiguation_rule_apply_paths exNoMatchRule [untaggedToken] false [false]
     none).2.2.1 rfl rfl rfl⟩

/-- C10: every suggestion returned by `Rule::apply` has a non-empty text
vector — a match whose suggesters all return none yields no suggestion at all
— so the `suggestion.text[0]` indexing done by `Rules::correct` is in bounds
on suggestion lists produced by `Rule::apply`. -/
theorem rule_apply_text_nonempty (self : Rule) (tokens : List Nlprule.Token)
    (skip_mask : Option (List Bool)) :
    ∀ s ∈ self.apply tokens skip_mask, s.text ≠ [] := by
  intro s hs
  unfold Rule.apply at hs
  rw [List.mem_filterMap] at hs
  obtain ⟨graph, _, hgraph⟩ := hs
  simp only [Option.ite_none_right_eq_some] at hgraph
  obtain ⟨hcond, hrec⟩ := hgraph
  injection hrec with hrec
  rw [← hrec]
  simp only []
  intro hcontra
  rw [hcontra] at hcond
  simp at hcond

/-- C10, witness: the theorem applied to the one suggestion the example rule
produces on a one-token sequence. -/
theorem rule_apply_text_nonempty_witness :
    (⟨"EX_ID", "m", 0, 3, ["x"]⟩ : Suggestion) ∈ Rule.apply exRule [exToken] none ∧
    (⟨"EX_ID", "m", 0, 3, ["x"]⟩ : Suggestion).text ≠ [] :=
  ⟨by decide, rule_apply_text_nonempty exRule [exToken] none
    ⟨"EX_ID", "m", 0, 3, ["x"]⟩ (by decide)⟩

end Nlprule
